import Mathlib

/-!
Verification of the RESP (Redis Serialization Protocol) codec in
`src/asyncresp.rs`: the value model `RedisValue`, the incremental parser
`redis_parser`, the decoder `RedisValueCodec::decode`, and the encoder
`write_redis_value` / `RedisValueCodec::encode`.

Bytes are modelled as `Nat` (each wire byte is `< 256`; none of the
comparisons made by the code distinguish larger values).  Machine integers
(`i64`, `usize`) are modelled as `Int` / `Nat` with explicit range checks
where the code performs them (`str::parse::<i64>`).
-/

/-- Value model: the `RedisValue` enum from `src/types.rs`, whose variants
are fully determined by their uses in `src/asyncresp.rs` and the spec's
data-model table (payloads are raw byte vectors, `Int` is a signed 64-bit
integer, `Array` holds an ordered list of values). -/
inductive RedisValue where
  | SimpleString (s : List Nat)
  | Error (e : List Nat)
  | Int (i : Int)
  | BulkString (s : List Nat)
  | Array (a : List RedisValue)
  | NullArray
  | NullBulkString

/-- Smallest `i64` value, `-2^63`. -/
def I64_MIN : Int := -9223372036854775808

/-- Largest `i64` value, `2^63 - 1`. -/
def I64_MAX : Int := 9223372036854775807

/-- Modelled from the spec: the constant `NULL_ARRAY` from `src/types.rs`
(not under `src/`); per spec section 6 a null array is the five bytes
`*-1\r\n`. -/
def NULL_ARRAY : List Nat := [42, 45, 49, 13, 10]

/-- Modelled from the spec: the constant `NULL_BULK_STRING` from
`src/types.rs` (not under `src/`); per spec section 6 a null bulk string is
the five bytes `$-1\r\n`. -/
def NULL_BULK_STRING : List Nat := [36, 45, 49, 13, 10]

/-- True when the byte list contains the two-byte sequence CR LF
(13, 10) somewhere. -/
def hasCRLF : List Nat → Bool
  | [] => false
  | [_] => false
  | a :: b :: t => (a == 13 && b == 10) || hasCRLF (b :: t)

/-- Index of the first occurrence of the two-byte sequence CR LF, if any.
This models what `take_until_bytes(&b"\r\n")` scans for. -/
def findCRLF : List Nat → Option Nat
  | [] => none
  | [_] => none
  | a :: b :: t => if a == 13 && b == 10 then some 0 else (findCRLF (b :: t)).map (· + 1)

/-- Word reader: models `recognize(take_until_bytes(&b"\r\n").with(take(2)))`
followed by the `word[..word.len() - 2]` payload extraction used by every
word-shaped production.  Returns the payload before the first CR LF and the
bytes after it, or `none` when no complete CR LF has arrived yet. -/
def splitWord (input : List Nat) : Option (List Nat × List Nat) :=
  (findCRLF input).map fun i => (input.take i, input.drop (i + 2))

mutual

/-- Decodes a byte list as UTF-8 to its scalar values, rejecting exactly
what Rust's `str::from_utf8` rejects: truncated sequences, bad
continuation bytes, overlong forms, surrogates, and values above
U+10FFFF. -/
def utf8Decode : List Nat → Option (List Nat)
  | [] => some []
  | a :: t =>
    if a ≤ 0x7F then (utf8Decode t).map (a :: ·)
    else utf8DecodeMulti a t

/-- Multi-byte continuation of `utf8Decode` for a leading byte `a` above
0x7F, checking the continuation-byte ranges that exclude overlong forms,
surrogates and values above U+10FFFF. -/
def utf8DecodeMulti (a : Nat) : List Nat → Option (List Nat)
  | [] => none
  | b :: t2 =>
    if 0xC2 ≤ a && a ≤ 0xDF then
      if 0x80 ≤ b && b ≤ 0xBF then
        (utf8Decode t2).map (((a - 0xC0) * 0x40 + (b - 0x80)) :: ·)
      else none
    else if 0xE0 ≤ a && a ≤ 0xEF then
      match t2 with
      | c :: t3 =>
        if (0x80 ≤ b && b ≤ 0xBF) && (0x80 ≤ c && c ≤ 0xBF)
            && (a != 0xE0 || 0xA0 ≤ b) && (a != 0xED || b ≤ 0x9F) then
          (utf8Decode t3).map
            (((a - 0xE0) * 0x1000 + (b - 0x80) * 0x40 + (c - 0x80)) :: ·)
        else none
      | [] => none
    else if 0xF0 ≤ a && a ≤ 0xF4 then
      match t2 with
      | c :: d :: t4 =>
        if (0x80 ≤ b && b ≤ 0xBF) && (0x80 ≤ c && c ≤ 0xBF) && (0x80 ≤ d && d ≤ 0xBF)
            && (a != 0xF0 || 0x90 ≤ b) && (a != 0xF4 || b ≤ 0x8F) then
          (utf8Decode t4).map
            (((a - 0xF0) * 0x40000 + (b - 0x80) * 0x1000 + (c - 0x80) * 0x40 + (d - 0x80)) :: ·)
        else none
      | _ => none
    else none

end

/-- Unicode scalar values with the White_Space property: the characters
removed by Rust's `str::trim` (via `char::is_whitespace`). -/
def isWsChar (c : Nat) : Bool :=
  c == 9 || c == 10 || c == 11 || c == 12 || c == 13 || c == 32 ||
  c == 0x85 || c == 0xA0 || c == 0x1680 || (0x2000 ≤ c && c ≤ 0x200A) ||
  c == 0x2028 || c == 0x2029 || c == 0x202F || c == 0x205F || c == 0x3000

/-- Models `str::trim`: removes leading and trailing whitespace scalars. -/
def trimChars (l : List Nat) : List Nat :=
  ((l.dropWhile isWsChar).reverse.dropWhile isWsChar).reverse

/-- Accumulation step of base-10 parsing: shift in one ASCII digit, or
poison the accumulator on a non-digit byte. -/
def digitStep (acc : Option Nat) (d : Nat) : Option Nat :=
  acc.bind fun a => if 48 ≤ d && d ≤ 57 then some (a * 10 + (d - 48)) else none

/-- Base-10 digit-run value: `some` of the value when the list is a
non-empty run of ASCII digits, `none` otherwise. -/
def parseDigits : List Nat → Option Nat
  | [] => none
  | ds => ds.foldl digitStep (some 0)

/-- Models `str::parse::<i64>` on a scalar list: optional sign, then a
non-empty digit run, with the result required to fit in `i64`. -/
def parseI64 (cs : List Nat) : Option Int :=
  match cs with
  | [] => none
  | c :: ds =>
    if c = 43 then
      (parseDigits ds).bind fun m => if (m : Int) ≤ I64_MAX then some (m : Int) else none
    else if c = 45 then
      (parseDigits ds).bind fun m => if (m : Int) ≤ -I64_MIN then some (-(m : Int)) else none
    else
      (parseDigits (c :: ds)).bind fun m => if (m : Int) ≤ I64_MAX then some (m : Int) else none

/-- Models the `int` production's payload handling:
`str::from_utf8(&word[..word.len() - 2])` then `word.trim().parse::<i64>()`.
`none` corresponds to the parse failing with a stream error. -/
def int_of_word (w : List Nat) : Option Int :=
  (utf8Decode w).bind fun cs => parseI64 (trimChars cs)

/-- Decimal digits of `n`, most significant first, as ASCII bytes; the
fuel argument only serves structural termination and is irrelevant once it
exceeds `n` (see `decimalNatAux_fuel`). -/
def decimalNatAux : Nat → Nat → List Nat
  | 0, _ => []
  | f + 1, n => if n < 10 then [48 + n] else decimalNatAux f (n / 10) ++ [48 + n % 10]

/-- Models `usize::to_string().as_bytes()`: decimal ASCII digits of `n`,
most significant first, no leading zeros (except for `0` itself). -/
def decimalNat (n : Nat) : List Nat := decimalNatAux (n + 1) n

/-- Models `i64::to_string().as_bytes()`: a leading `-` for negative
values, then the decimal digits of the magnitude. -/
def decimalInt (i : Int) : List Nat :=
  if i < 0 then 45 :: decimalNat i.natAbs else decimalNat i.toNat

mutual

/-- Encoder: models `write_redis_value` from `src/asyncresp.rs`, returning
the bytes appended to `dst` (the real function appends in this exact
order with `extend_from_slice`). -/
def write_redis_value : RedisValue → List Nat
  | .Error e => 45 :: (e ++ [13, 10])
  | .SimpleString s => 43 :: (s ++ [13, 10])
  | .BulkString s => 36 :: (decimalNat s.length ++ [13, 10] ++ s ++ [13, 10])
  | .Array a => 42 :: (decimalNat a.length ++ [13, 10] ++ write_list a)
  | .Int i => 58 :: (decimalInt i ++ [13, 10])
  | .NullArray => NULL_ARRAY
  | .NullBulkString => NULL_BULK_STRING

/-- Encoder helper: the `for redis_value in array { write_redis_value(..) }`
loop, appending each element's encoding in order. -/
def write_list : List RedisValue → List Nat
  | [] => []
  | v :: t => write_redis_value v ++ write_list t

end

/-- Result of running the parse engine on a buffer: a finished value plus
the unconsumed remainder, a suspension for more input, a protocol error,
or the out-of-fuel marker of this embedding (proved unreachable for the
fuel used by `redis_parse`). -/
inductive PResult where
  | done (v : RedisValue) (rest : List Nat)
  | more
  | fail (msg : String)
  | noFuel

/-- Simple-string production after the `+` tag: a word whose payload
becomes `RedisValue::SimpleString`. -/
def parseSimple (rest : List Nat) : PResult :=
  match splitWord rest with
  | none => .more
  | some (w, rest2) => .done (.SimpleString w) rest2

/-- Error production after the `-` tag: a word whose payload becomes
`RedisValue::Error`. -/
def parseErrTag (rest : List Nat) : PResult :=
  match splitWord rest with
  | none => .more
  | some (w, rest2) => .done (.Error w) rest2

/-- Integer production after the `:` tag: a word fed to `int`, producing
`RedisValue::Int` or a parse error. -/
def parseIntTag (rest : List Nat) : PResult :=
  match splitWord rest with
  | none => .more
  | some (w, rest2) =>
    match int_of_word w with
    | none => .fail "Expected integer, got garbage"
    | some n => .done (.Int n) rest2

/-- Trailing CR LF check used by the bulk-string production
(`.skip(crlf())`). -/
def parseCrlf : List Nat → Option (Option (List Nat))
  | [] => some none
  | [a] => if a = 13 then some none else none
  | a :: b :: t => if a = 13 && b = 10 then some (some t) else none

/-- Bulk-string production after the `$` tag: an integer length, then for a
negative length `NullBulkString` with no body, otherwise exactly `length`
raw bytes and a trailing CR LF. -/
def parseBulk (rest : List Nat) : PResult :=
  match splitWord rest with
  | none => .more
  | some (w, rest2) =>
    match int_of_word w with
    | none => .fail "Expected integer, got garbage"
    | some n =>
      if n < 0 then .done .NullBulkString rest2
      else if rest2.length < n.toNat then .more
      else
        match parseCrlf (rest2.drop n.toNat) with
        | some (some rest3) => .done (.BulkString (rest2.take n.toNat)) rest3
        | some none => .more
        | none => .fail "expected crlf after bulk string body"

mutual

/-- Parse engine: models `redis_parser` from `src/asyncresp.rs` at fuel
`f`.  The first byte dispatches between the five productions in the order
of the source's `choice` tuple; an empty buffer or an incomplete
production suspends with `.more`.  Fuel decreases on every recursive call
and `redis_parse` supplies enough for it never to run out. -/
def parseValueF : Nat → List Nat → PResult
  | 0, _ => .noFuel
  | _ + 1, [] => .more
  | f + 1, t :: rest =>
    if t = 43 then parseSimple rest
    else if t = 58 then parseIntTag rest
    else if t = 45 then parseErrTag rest
    else if t = 36 then parseBulk rest
    else if t = 42 then
      match splitWord rest with
      | none => .more
      | some (w, rest2) =>
        match int_of_word w with
        | none => .fail "Expected integer, got garbage"
        | some n =>
          if n < 0 then .done .NullArray rest2
          else parseElemsF f n.toNat rest2 []
    else .fail "unexpected type tag byte"
termination_by structural f _ => f

/-- Array-element loop: models `count_min_max(length, length, redis_parser())`,
parsing exactly `n` further elements and collecting them in order
(`acc` holds the already-parsed elements, reversed). -/
def parseElemsF : Nat → Nat → List Nat → List RedisValue → PResult
  | 0, _, _, _ => .noFuel
  | _ + 1, 0, input, acc => .done (.Array acc.reverse) input
  | f + 1, n + 1, input, acc =>
    match parseValueF f input with
    | .done v rest => parseElemsF f n rest (v :: acc)
    | r => r
termination_by structural f _ _ _ => f

end

/-- Parse engine at the fuel `redis_parse` always has available; the
`Result<RedisValue, String>` layer of the source is collapsed because its
`Err` values are never constructed (every leaf production maps its output
through `Ok`, and a failing element aborts `count_min_max` itself). -/
def redis_parse (input : List Nat) : PResult :=
  parseValueF (input.length + 1) input

/-- Decoder: models `RedisValueCodec::decode` on a buffer.  A parse error
is returned as `Error::Else`; otherwise `removed_len` bytes are split off
the front of the buffer and the optional value returned.  Modelled from
the spec for the `removed_len` on suspension: spec section 4.2 requires a
partial message to "leave the buffer exactly as given", the combine
library internals that compute `removed_len` being outside `src/`. -/
def decode (buffer : List Nat) : Except String (Option RedisValue × List Nat) :=
  match redis_parse buffer with
  | .done v rest => .ok (some v, rest)
  | .more => .ok (none, buffer)
  | .fail msg => .error msg
  | .noFuel => .error "internal: out of fuel"

/-- Two decode calls on one growing buffer: feed `c1`, and if no value is
complete yet append `c2` to the retained buffer and decode again.  This is
the two-piece delivery schedule of the chunk-invariance property. -/
def feedTwo (c1 c2 : List Nat) : Except String (Option RedisValue × List Nat) :=
  match decode c1 with
  | .ok (none, buf) => decode (buf ++ c2)
  | .ok (some v, buf) => .ok (some v, buf ++ c2)
  | .error e => .error e

/-- Encoder entry point: models `RedisValueCodec::encode`, which appends
the wire bytes to `dst` and unconditionally returns `Ok(())`. -/
def encode (item : RedisValue) (dst : List Nat) : Except String (List Nat) :=
  .ok (dst ++ write_redis_value item)

mutual

/-- Values constructible in the source program whose payload imposes no
parse ambiguity: `SimpleString`/`Error` payloads contain no CR LF pair
(the wire format cannot represent embedded CR LF for them), integers fit
in `i64` (the payload type), and lengths fit in `i64` (they are in-memory
`usize` lengths). -/
def wellFormed : RedisValue → Bool
  | .SimpleString s => !hasCRLF s
  | .Error e => !hasCRLF e
  | .Int i => decide (I64_MIN ≤ i) && decide (i ≤ I64_MAX)
  | .BulkString s => decide ((s.length : Int) ≤ I64_MAX)
  | .Array a => decide ((a.length : Int) ≤ I64_MAX) && wellFormedList a
  | .NullArray => true
  | .NullBulkString => true

/-- List version of `wellFormed` for array elements. -/
def wellFormedList : List RedisValue → Bool
  | [] => true
  | v :: t => wellFormed v && wellFormedList t

end

theorem hasCRLF_cons2 (a b : Nat) (t : List Nat) :
    hasCRLF (a :: b :: t) = ((a == 13 && b == 10) || hasCRLF (b :: t)) := rfl

theorem findCRLF_cons2 (a b : Nat) (t : List Nat) :
    findCRLF (a :: b :: t) =
      if a == 13 && b == 10 then some 0 else (findCRLF (b :: t)).map (· + 1) := rfl

theorem findCRLF_eq_none (l : List Nat) (h : hasCRLF l = false) : findCRLF l = none := by
  induction l with
  | nil => rfl
  | cons a t ih =>
    cases t with
    | nil => rfl
    | cons b t2 =>
      rw [hasCRLF_cons2] at h
      rw [findCRLF_cons2]
      simp only [Bool.or_eq_false_iff] at h
      rw [ih h.2]
      simp [h.1]

theorem findCRLF_append_crlf (w t : List Nat) (h : hasCRLF w = false) :
    findCRLF (w ++ 13 :: 10 :: t) = some w.length := by
  induction w with
  | nil => rfl
  | cons a w2 ih =>
    cases w2 with
    | nil =>
      simp only [List.cons_append, List.nil_append, findCRLF_cons2]
      norm_num [findCRLF_cons2]
    | cons b w3 =>
      rw [hasCRLF_cons2] at h
      simp only [Bool.or_eq_false_iff] at h
      simp only [List.cons_append] at ih ⊢
      rw [findCRLF_cons2, ih h.2]
      simp [h.1, List.length_cons]

theorem findCRLF_le (l : List Nat) (k : Nat) (h : findCRLF l = some k) : k + 2 ≤ l.length := by
  induction l generalizing k with
  | nil => simp [findCRLF] at h
  | cons a t ih =>
    cases t with
    | nil => simp [findCRLF] at h
    | cons b t2 =>
      rw [findCRLF_cons2] at h
      split at h
      · simp only [Option.some.injEq] at h
        simp only [List.length_cons]
        omega
      · simp only [Option.map_eq_some'] at h
        obtain ⟨k2, hk2, rfl⟩ := h
        have := ih k2 hk2
        simp only [List.length_cons] at this ⊢
        omega

theorem findCRLF_append_of_some (l t : List Nat) (k : Nat) (h : findCRLF l = some k) :
    findCRLF (l ++ t) = some k := by
  induction l generalizing k with
  | nil => simp [findCRLF] at h
  | cons a l2 ih =>
    cases l2 with
    | nil => simp [findCRLF] at h
    | cons b l3 =>
      rw [findCRLF_cons2] at h
      simp only [List.cons_append, findCRLF_cons2]
      split at h
      · simp_all
      · simp only [Option.map_eq_some'] at h
        obtain ⟨k2, hk2, rfl⟩ := h
        rw [List.cons_append] at ih
        simp_all [ih k2 hk2]

theorem hasCRLF_ex_findCRLF (l : List Nat) (h : hasCRLF l = true) :
    ∃ k, findCRLF l = some k ∧ k + 2 ≤ l.length := by
  induction l with
  | nil => simp [hasCRLF] at h
  | cons a t ih =>
    cases t with
    | nil => simp [hasCRLF] at h
    | cons b t2 =>
      rw [hasCRLF_cons2] at h
      rw [findCRLF_cons2]
      by_cases hab : (a == 13 && b == 10) = true
      · exact ⟨0, by simp [hab], by simp⟩
      · simp only [hab, Bool.false_or] at h
        obtain ⟨k, hk, hle⟩ := ih h
        refine ⟨k + 1, ?_, ?_⟩
        · simp [hab, hk]
        · simp only [List.length_cons] at hle ⊢
          omega

theorem hasCRLF_of_no13 (l : List Nat) (h : ∀ x ∈ l, x ≠ 13) : hasCRLF l = false := by
  induction l with
  | nil => rfl
  | cons a t ih =>
    cases t with
    | nil => rfl
    | cons b t2 =>
      rw [hasCRLF_cons2]
      have ha : a ≠ 13 := h a (by simp)
      have ht : ∀ x ∈ b :: t2, x ≠ 13 := fun x hx => h x (by simp [hx])
      simp [ih ht, ha]

theorem hasCRLF_take (l : List Nat) (j : Nat) (h : hasCRLF l = false) :
    hasCRLF (l.take j) = false := by
  induction l generalizing j with
  | nil => simp [List.take_nil, hasCRLF]
  | cons a t ih =>
    cases j with
    | zero => rfl
    | succ j2 =>
      rw [List.take_succ_cons]
      cases t with
      | nil => simp [List.take_nil]; cases j2 <;> rfl
      | cons b t2 =>
        rw [hasCRLF_cons2] at h
        simp only [Bool.or_eq_false_iff] at h
        cases j2 with
        | zero => rfl
        | succ j3 =>
          have := ih (j3 + 1) h.2
          rw [List.take_succ_cons] at this ⊢
          rw [hasCRLF_cons2]
          simp [h.1, this]

theorem hasCRLF_snoc13 (l : List Nat) (h : hasCRLF l = false) :
    hasCRLF (l ++ [13]) = false := by
  induction l with
  | nil => rfl
  | cons a t ih =>
    cases t with
    | nil =>
      have h13 : hasCRLF [13] = false := rfl
      have hb : ((13 : Nat) == 10) = false := rfl
      simp only [List.cons_append, List.nil_append]
      rw [hasCRLF_cons2, h13, hb]
      simp
    | cons b t2 =>
      rw [hasCRLF_cons2] at h
      simp only [Bool.or_eq_false_iff] at h
      simp only [List.cons_append] at ih ⊢
      rw [hasCRLF_cons2]
      simp [h.1, ih h.2]

theorem findCRLF_take_word (w : List Nat) (j : Nat) (h : hasCRLF w = false)
    (hj : j < w.length + 2) : findCRLF ((w ++ [13, 10]).take j) = none := by
  rcases Nat.lt_or_ge j (w.length + 1) with hlt | hge
  · by_cases hle : j ≤ w.length
    · rw [List.take_append_of_le_length hle]
      exact findCRLF_eq_none _ (hasCRLF_take w j h)
    · omega
  · have hj1 : j = w.length + 1 := by omega
    subst hj1
    rw [List.take_append_eq_append_take, List.take_of_length_le (by omega)]
    have : (w.length + 1 - w.length) = 1 := by omega
    rw [this]
    exact findCRLF_eq_none _ (hasCRLF_snoc13 w h)

theorem splitWord_append_crlf (w t : List Nat) (h : hasCRLF w = false) :
    splitWord (w ++ 13 :: 10 :: t) = some (w, t) := by
  rw [splitWord, findCRLF_append_crlf w t h]
  simp only [Option.map_some']
  refine congrArg some (Prod.ext ?_ ?_)
  · exact List.take_left' rfl
  · show (w ++ 13 :: 10 :: t).drop (w.length + 2) = t
    have : w ++ 13 :: 10 :: t = (w ++ [13, 10]) ++ t := by simp
    rw [this]
    exact List.drop_left' (by simp)

theorem splitWord_eq_none (r : List Nat) (h : findCRLF r = none) : splitWord r = none := by
  simp [splitWord, h]

theorem splitWord_le (r w rest2 : List Nat) (h : splitWord r = some (w, rest2)) :
    rest2.length + 2 ≤ r.length := by
  rw [splitWord] at h
  cases hf : findCRLF r with
  | none => simp [hf] at h
  | some k =>
    have hk := findCRLF_le r k hf
    rw [hf] at h
    simp only [Option.map_some', Option.some.injEq, Prod.mk.injEq] at h
    obtain ⟨hw, hr⟩ := h
    subst hr
    simp only [List.length_drop]
    omega

theorem decimalNatAux_fuel (f g n : Nat) (hf : n < f) (hg : n < g) :
    decimalNatAux f n = decimalNatAux g n := by
  induction f generalizing g n with
  | zero => omega
  | succ f2 ih =>
    cases g with
    | zero => omega
    | succ g2 =>
      simp only [decimalNatAux]
      by_cases h : n < 10
      · simp [h]
      · rw [if_neg h, if_neg h]
        have : decimalNatAux f2 (n / 10) = decimalNatAux g2 (n / 10) :=
          ih g2 (n / 10) (by omega) (by omega)
        rw [this]

theorem decimalNat_unfold (n : Nat) :
    decimalNat n = if n < 10 then [48 + n] else decimalNat (n / 10) ++ [48 + n % 10] := by
  show decimalNatAux (n + 1) n = _
  rw [decimalNatAux]
  by_cases h : n < 10
  · simp [h]
  · rw [if_neg h, if_neg h]
    have : decimalNatAux n (n / 10) = decimalNatAux (n / 10 + 1) (n / 10) :=
      decimalNatAux_fuel n (n / 10 + 1) (n / 10) (by omega) (by omega)
    rw [this]
    rfl

theorem decimalNat_ne_nil (n : Nat) : decimalNat n ≠ [] := by
  rw [decimalNat_unfold]
  by_cases h : n < 10 <;> simp [h]

theorem decimalNat_digits (n : Nat) : ∀ d ∈ decimalNat n, 48 ≤ d ∧ d ≤ 57 := by
  induction n using Nat.strong_induction_on with
  | _ n ih =>
    intro d hd
    rw [decimalNat_unfold] at hd
    by_cases h : n < 10
    · rw [if_pos h] at hd
      simp only [List.mem_singleton] at hd
      omega
    · rw [if_neg h] at hd
      rcases List.mem_append.mp hd with hd2 | hd2
      · exact ih (n / 10) (by omega) d hd2
      · simp only [List.mem_singleton] at hd2
        omega

theorem decimalNat_head_ne_zero (n : Nat) (hn : n ≠ 0) : (decimalNat n).head? ≠ some 48 := by
  induction n using Nat.strong_induction_on with
  | _ n ih =>
    rw [decimalNat_unfold]
    by_cases h : n < 10
    · rw [if_pos h]
      simp only [List.head?_cons, ne_eq, Option.some.injEq]
      omega
    · rw [if_neg h, List.head?_append]
      rcases hsh : decimalNat (n / 10) with _ | ⟨d, ds⟩
      · exact absurd hsh (decimalNat_ne_nil (n / 10))
      · have := ih (n / 10) (by omega) (by omega)
        rw [hsh] at this
        simpa using this

theorem decimalNat_foldl (n : Nat) :
    ∀ a : Nat, (decimalNat n).foldl digitStep (some a) =
      some (a * 10 ^ (decimalNat n).length + n) := by
  induction n using Nat.strong_induction_on with
  | _ n ih =>
    intro a
    have hstep : ∀ b d : Nat, 48 ≤ d → d ≤ 57 → digitStep (some b) d = some (b * 10 + (d - 48)) := by
      intro b d hd1 hd2
      rw [digitStep, Option.some_bind, if_pos]
      simp only [Bool.and_eq_true, decide_eq_true_eq]
      omega
    rw [decimalNat_unfold]
    by_cases h : n < 10
    · rw [if_pos h, List.foldl_cons, List.foldl_nil, hstep a (48 + n) (by omega) (by omega)]
      have : a * 10 + (48 + n - 48) = a * 10 ^ [48 + n].length + n := by
        simp only [List.length_cons, List.length_nil, pow_one]
        omega
      rw [this]
    · rw [if_neg h, List.foldl_append, ih (n / 10) (by omega) a, List.foldl_cons,
        List.foldl_nil, hstep _ (48 + n % 10) (by omega) (by omega)]
      have hlen : (decimalNat (n / 10) ++ [48 + n % 10]).length =
          (decimalNat (n / 10)).length + 1 := by simp
      rw [hlen]
      have harith : (a * 10 ^ (decimalNat (n / 10)).length + n / 10) * 10 + (48 + n % 10 - 48)
          = a * 10 ^ ((decimalNat (n / 10)).length + 1) + n := by
        rw [pow_succ, ← Nat.mul_assoc, Nat.add_mul, Nat.add_assoc]
        congr 1
        omega
      rw [harith]

theorem parseDigits_decimalNat (n : Nat) : parseDigits (decimalNat n) = some n := by
  obtain ⟨d, ds, hsh⟩ : ∃ d ds, decimalNat n = d :: ds := by
    rcases hq : decimalNat n with _ | ⟨d, ds⟩
    · exact absurd hq (decimalNat_ne_nil n)
    · exact ⟨d, ds, rfl⟩
  rw [hsh]
  show (d :: ds).foldl digitStep (some 0) = some n
  rw [← hsh]
  have := decimalNat_foldl n 0
  simpa using this

theorem decimalNat_no13 (n : Nat) : hasCRLF (decimalNat n) = false :=
  hasCRLF_of_no13 _ fun x hx => by have := decimalNat_digits n x hx; omega

theorem hasCRLF_decimalInt (i : Int) : hasCRLF (decimalInt i) = false := by
  rw [decimalInt]
  split
  · apply hasCRLF_of_no13
    intro x hx
    rcases List.mem_cons.mp hx with rfl | hx2
    · omega
    · have := decimalNat_digits i.natAbs x hx2
      omega
  · exact decimalNat_no13 _

theorem utf8Decode_ascii (l : List Nat) (h : ∀ x ∈ l, x ≤ 127) : utf8Decode l = some l := by
  induction l with
  | nil => rfl
  | cons a t ih =>
    have ha : a ≤ 127 := h a (by simp)
    rw [utf8Decode, if_pos (by omega : a ≤ 0x7F), ih fun x hx => h x (by simp [hx])]
    rfl

theorem isWsChar_sign_digit (d : Nat) (h1 : 43 ≤ d) (h2 : d ≤ 57) : isWsChar d = false := by
  rw [isWsChar]
  simp only [Bool.or_eq_false_iff, beq_eq_false_iff_ne, ne_eq, Bool.and_eq_false_iff,
    decide_eq_false_iff_not, not_le]
  omega

theorem trimChars_of_no_ws (l : List Nat) (h : ∀ x ∈ l, isWsChar x = false) :
    trimChars l = l := by
  have h1 : l.dropWhile isWsChar = l := by
    cases l with
    | nil => rfl
    | cons a t =>
      rw [List.dropWhile_cons]
      simp [h a (by simp)]
  rw [trimChars, h1]
  have h2 : l.reverse.dropWhile isWsChar = l.reverse := by
    cases hr : l.reverse with
    | nil => rfl
    | cons a t =>
      rw [List.dropWhile_cons]
      have ha : a ∈ l := by
        rw [← List.mem_reverse, hr]
        simp
      simp [h a ha]
  rw [h2, List.reverse_reverse]

theorem parseI64_sign_neg (ds : List Nat) :
    parseI64 (45 :: ds) =
      (parseDigits ds).bind fun m =>
        if (m : Int) ≤ -I64_MIN then some (-(m : Int)) else none := by
  rw [parseI64]
  norm_num

theorem parseI64_digit_head (c : Nat) (ds : List Nat) (h1 : 48 ≤ c) (h2 : c ≤ 57) :
    parseI64 (c :: ds) =
      (parseDigits (c :: ds)).bind fun m =>
        if (m : Int) ≤ I64_MAX then some (m : Int) else none := by
  rw [parseI64, if_neg (by omega), if_neg (by omega)]

theorem int_of_word_decimalNat (n : Nat) (h : (n : Int) ≤ I64_MAX) :
    int_of_word (decimalNat n) = some (n : Int) := by
  have hdig := decimalNat_digits n
  rw [int_of_word, utf8Decode_ascii _ fun x hx => by have := hdig x hx; omega]
  show parseI64 (trimChars (decimalNat n)) = some (n : Int)
  rw [trimChars_of_no_ws _ fun x hx => by
    have := hdig x hx
    exact isWsChar_sign_digit x (by omega) (by omega)]
  obtain ⟨d, ds, hsh⟩ : ∃ d ds, decimalNat n = d :: ds := by
    rcases hq : decimalNat n with _ | ⟨d, ds⟩
    · exact absurd hq (decimalNat_ne_nil n)
    · exact ⟨d, ds, rfl⟩
  have hd := hdig d (by rw [hsh]; simp)
  rw [hsh, parseI64_digit_head d ds hd.1 hd.2, ← hsh, parseDigits_decimalNat n]
  show (if ((n : Nat) : Int) ≤ I64_MAX then some ((n : Nat) : Int) else none) = some (n : Int)
  rw [if_pos h]

theorem int_of_word_decimalInt (i : Int) (h1 : I64_MIN ≤ i) (h2 : i ≤ I64_MAX) :
    int_of_word (decimalInt i) = some i := by
  rw [decimalInt]
  split
  case isTrue hneg =>
    have hdig := decimalNat_digits i.natAbs
    rw [int_of_word]
    rw [utf8Decode_ascii _ (by
      intro x hx
      rcases List.mem_cons.mp hx with rfl | hx2
      · omega
      · have := hdig x hx2
        omega)]
    show parseI64 (trimChars (45 :: decimalNat i.natAbs)) = some i
    rw [trimChars_of_no_ws _ (by
      intro x hx
      rcases List.mem_cons.mp hx with rfl | hx2
      · exact isWsChar_sign_digit 45 (by omega) (by omega)
      · have := hdig x hx2
        exact isWsChar_sign_digit x (by omega) (by omega))]
    rw [parseI64_sign_neg, parseDigits_decimalNat]
    show (if ((i.natAbs : Nat) : Int) ≤ -I64_MIN then some (-((i.natAbs : Nat) : Int)) else none)
      = some i
    rw [if_pos (by simp only [I64_MIN] at h1 ⊢; omega)]
    have : -((i.natAbs : Nat) : Int) = i := by omega
    rw [this]
  case isFalse hpos =>
    rw [int_of_word_decimalNat i.toNat (by omega)]
    have : ((i.toNat : Nat) : Int) = i := by omega
    rw [this]

theorem parseCrlf_crlf (t : List Nat) : parseCrlf (13 :: 10 :: t) = some (some t) := by
  rw [parseCrlf]
  simp

theorem parseCrlf_found_len (x r : List Nat) (h : parseCrlf x = some (some r)) :
    r.length + 2 = x.length := by
  match x with
  | [] => simp [parseCrlf] at h
  | [a] =>
    rw [parseCrlf] at h
    split at h <;> simp at h
  | a :: b :: t =>
    rw [parseCrlf] at h
    split at h
    · simp only [Option.some.injEq] at h
      subst h
      simp
    · simp at h

theorem parseSimple_len (r : List Nat) (v : RedisValue) (rest2 : List Nat)
    (h : parseSimple r = .done v rest2) : rest2.length + 2 ≤ r.length := by
  rw [parseSimple] at h
  cases hsw : splitWord r with
  | none => simp [hsw] at h
  | some p =>
    obtain ⟨w, r2⟩ := p
    simp only [hsw] at h
    injection h with h1 h2
    subst h2
    exact splitWord_le r w r2 hsw

theorem parseErrTag_len (r : List Nat) (v : RedisValue) (rest2 : List Nat)
    (h : parseErrTag r = .done v rest2) : rest2.length + 2 ≤ r.length := by
  rw [parseErrTag] at h
  cases hsw : splitWord r with
  | none => simp [hsw] at h
  | some p =>
    obtain ⟨w, r2⟩ := p
    simp only [hsw] at h
    injection h with h1 h2
    subst h2
    exact splitWord_le r w r2 hsw

theorem parseIntTag_len (r : List Nat) (v : RedisValue) (rest2 : List Nat)
    (h : parseIntTag r = .done v rest2) : rest2.length + 2 ≤ r.length := by
  rw [parseIntTag] at h
  cases hsw : splitWord r with
  | none => simp [hsw] at h
  | some p =>
    obtain ⟨w, r2⟩ := p
    simp only [hsw] at h
    cases hi : int_of_word w with
    | none => simp [hi] at h
    | some n =>
      simp only [hi] at h
      injection h with h1 h2
      subst h2
      exact splitWord_le r w r2 hsw

theorem parseBulk_len (r : List Nat) (v : RedisValue) (rest2 : List Nat)
    (h : parseBulk r = .done v rest2) : rest2.length + 2 ≤ r.length := by
  rw [parseBulk] at h
  cases hsw : splitWord r with
  | none => simp [hsw] at h
  | some p =>
    obtain ⟨w, r2⟩ := p
    simp only [hsw] at h
    cases hi : int_of_word w with
    | none => simp [hi] at h
    | some n =>
      simp only [hi] at h
      have hr2 := splitWord_le r w r2 hsw
      split_ifs at h with hneg hlen
      · injection h with h1 h2
        subst h2
        omega
      · cases hc : parseCrlf (r2.drop n.toNat) with
        | none => simp [hc] at h
        | some o =>
          cases o with
          | none => simp [hc] at h
          | some r3 =>
            simp only [hc] at h
            injection h with h1 h2
            subst h2
            have := parseCrlf_found_len _ _ hc
            simp only [List.length_drop] at this
            omega

theorem parseSimple_ne_noFuel (r : List Nat) : parseSimple r ≠ .noFuel := by
  rw [parseSimple]
  cases splitWord r with
  | none => simp
  | some p => obtain ⟨w, r2⟩ := p; simp

theorem parseErrTag_ne_noFuel (r : List Nat) : parseErrTag r ≠ .noFuel := by
  rw [parseErrTag]
  cases splitWord r with
  | none => simp
  | some p => obtain ⟨w, r2⟩ := p; simp

theorem parseIntTag_ne_noFuel (r : List Nat) : parseIntTag r ≠ .noFuel := by
  rw [parseIntTag]
  cases splitWord r with
  | none => simp
  | some p =>
    obtain ⟨w, r2⟩ := p
    cases hi : int_of_word w <;> simp [hi]

theorem parseBulk_ne_noFuel (r : List Nat) : parseBulk r ≠ .noFuel := by
  rw [parseBulk]
  cases splitWord r with
  | none => simp
  | some p =>
    obtain ⟨w, r2⟩ := p
    cases hi : int_of_word w with
    | none => simp [hi]
    | some n =>
      simp only [hi]
      split_ifs
      · simp
      · simp
      · cases hc : parseCrlf (r2.drop n.toNat) with
        | none => simp [hc]
        | some o => cases o <;> simp [hc]

theorem parse_consume (f : Nat) :
    (∀ input v rest, parseValueF f input = .done v rest → rest.length + 3 ≤ input.length) ∧
    (∀ n input acc v rest, parseElemsF f n input acc = .done v rest →
      rest.length ≤ input.length) := by
  induction f with
  | zero =>
    constructor
    · intro input v rest h
      simp [parseValueF] at h
    · intro n input acc v rest h
      simp [parseElemsF] at h
  | succ f ih =>
    constructor
    · intro input v rest h
      cases input with
      | nil => simp [parseValueF] at h
      | cons t r =>
        rw [parseValueF] at h
        split_ifs at h with h43 h58 h45 h36 h42
        · have := parseSimple_len r v rest h
          simp only [List.length_cons]
          omega
        · have := parseIntTag_len r v rest h
          simp only [List.length_cons]
          omega
        · have := parseErrTag_len r v rest h
          simp only [List.length_cons]
          omega
        · have := parseBulk_len r v rest h
          simp only [List.length_cons]
          omega
        · cases hsw : splitWord r with
          | none => simp [hsw] at h
          | some p =>
            obtain ⟨w, r2⟩ := p
            simp only [hsw] at h
            cases hi : int_of_word w with
            | none => simp [hi] at h
            | some n =>
              simp only [hi] at h
              have hr2 := splitWord_le r w r2 hsw
              split_ifs at h with hneg
              · injection h with h1 h2
                subst h2
                simp only [List.length_cons]
                omega
              · have := ih.2 n.toNat r2 [] v rest h
                simp only [List.length_cons]
                omega
    · intro n input acc v rest h
      cases n with
      | zero =>
        rw [parseElemsF] at h
        injection h with h1 h2
        subst h2
        exact Nat.le_refl _
      | succ n =>
        rw [parseElemsF] at h
        cases hv : parseValueF f input with
        | done v2 r2 =>
          simp only [hv] at h
          have ha := ih.1 input v2 r2 hv
          have hb := ih.2 n r2 (v2 :: acc) v rest h
          omega
        | more => simp [hv] at h
        | fail m => simp [hv] at h
        | noFuel => simp [hv] at h

theorem parse_fuel (f : Nat) :
    (∀ input : List Nat, input.length < f → parseValueF f input ≠ .noFuel) ∧
    (∀ (n : Nat) (input : List Nat) (acc : List RedisValue),
      input.length + 2 ≤ f → parseElemsF f n input acc ≠ .noFuel) := by
  induction f with
  | zero =>
    constructor
    · intro input h
      omega
    · intro n input acc h
      omega
  | succ f ih =>
    constructor
    · intro input hlen
      cases input with
      | nil => simp [parseValueF]
      | cons t r =>
        rw [parseValueF]
        split_ifs with h43 h58 h45 h36 h42
        · exact parseSimple_ne_noFuel r
        · exact parseIntTag_ne_noFuel r
        · exact parseErrTag_ne_noFuel r
        · exact parseBulk_ne_noFuel r
        · cases hsw : splitWord r with
          | none => simp
          | some p =>
            obtain ⟨w, r2⟩ := p
            cases hi : int_of_word w with
            | none => simp [hi]
            | some n =>
              simp only [hi]
              split_ifs with hneg
              · simp
              · apply ih.2
                have := splitWord_le r w r2 hsw
                simp only [List.length_cons] at hlen
                omega
        · simp
    · intro n input acc hlen
      cases n with
      | zero => simp [parseElemsF]
      | succ n =>
        rw [parseElemsF]
        cases hv : parseValueF f input with
        | done v2 r2 =>
          simp only [hv]
          have := (parse_consume f).1 input v2 r2 hv
          exact ih.2 n r2 (v2 :: acc) (by omega)
        | more => simp
        | fail m => simp
        | noFuel => exact absurd hv (ih.1 input (by omega))

theorem redis_parse_ne_noFuel (input : List Nat) : redis_parse input ≠ .noFuel :=
  (parse_fuel (input.length + 1)).1 input (Nat.lt_succ_self _)

theorem decimalNat_length_pos (n : Nat) : 0 < (decimalNat n).length :=
  List.length_pos.mpr (decimalNat_ne_nil n)

theorem write_length_ge (v : RedisValue) : 3 ≤ (write_redis_value v).length := by
  cases v <;>
    simp [write_redis_value, NULL_ARRAY, NULL_BULK_STRING, List.length_append] <;>
    omega

theorem parseSimple_word (w t : List Nat) (h : hasCRLF w = false) :
    parseSimple (w ++ 13 :: 10 :: t) = .done (.SimpleString w) t := by
  rw [parseSimple, splitWord_append_crlf w t h]

theorem parseErrTag_word (w t : List Nat) (h : hasCRLF w = false) :
    parseErrTag (w ++ 13 :: 10 :: t) = .done (.Error w) t := by
  rw [parseErrTag, splitWord_append_crlf w t h]

theorem parseIntTag_word (w t : List Nat) (n : Int) (h : hasCRLF w = false)
    (hn : int_of_word w = some n) :
    parseIntTag (w ++ 13 :: 10 :: t) = .done (.Int n) t := by
  rw [parseIntTag]
  simp only [splitWord_append_crlf w t h, hn]

theorem parseIntTag_word_fail (w t : List Nat) (h : hasCRLF w = false)
    (hn : int_of_word w = none) :
    parseIntTag (w ++ 13 :: 10 :: t) = .fail "Expected integer, got garbage" := by
  rw [parseIntTag]
  simp only [splitWord_append_crlf w t h, hn]

theorem parseBulk_neg (w t : List Nat) (n : Int) (hw : hasCRLF w = false)
    (hn : int_of_word w = some n) (hneg : n < 0) :
    parseBulk (w ++ 13 :: 10 :: t) = .done .NullBulkString t := by
  rw [parseBulk]
  simp only [splitWord_append_crlf w t hw, hn]
  rw [if_pos hneg]

theorem parseBulk_body (w t s : List Nat) (hw : hasCRLF w = false)
    (hn : int_of_word w = some (s.length : Int)) :
    parseBulk (w ++ 13 :: 10 :: (s ++ 13 :: 10 :: t)) = .done (.BulkString s) t := by
  rw [parseBulk]
  simp only [splitWord_append_crlf _ _ hw, hn]
  rw [if_neg (by omega : ¬((s.length : Int) < 0))]
  have htn : ((s.length : Int)).toNat = s.length := by omega
  rw [htn]
  rw [if_neg (by simp)]
  have hdrop : (s ++ 13 :: 10 :: t).drop s.length = 13 :: 10 :: t := List.drop_left s _
  have htake : (s ++ 13 :: 10 :: t).take s.length = s := List.take_left s _
  rw [hdrop, parseCrlf_crlf, htake]

mutual

theorem parse_write : ∀ (v : RedisValue) (f : Nat) (tail : List Nat),
    wellFormed v = true → (write_redis_value v).length < f →
    parseValueF f (write_redis_value v ++ tail) = .done v tail
  | .SimpleString s, f, tail, hwf, hf => by
    cases f with
    | zero => exact absurd hf (Nat.not_lt_zero _)
    | succ f2 =>
      have hcr : hasCRLF s = false := by simpa [wellFormed] using hwf
      simp only [write_redis_value, List.cons_append]
      rw [parseValueF, if_pos rfl]
      have : (s ++ [13, 10]) ++ tail = s ++ 13 :: 10 :: tail := by simp
      rw [this, parseSimple_word s tail hcr]
  | .Error e, f, tail, hwf, hf => by
    cases f with
    | zero => exact absurd hf (Nat.not_lt_zero _)
    | succ f2 =>
      have hcr : hasCRLF e = false := by simpa [wellFormed] using hwf
      simp only [write_redis_value, List.cons_append]
      rw [parseValueF, if_neg (by decide), if_neg (by decide), if_pos rfl]
      have : (e ++ [13, 10]) ++ tail = e ++ 13 :: 10 :: tail := by simp
      rw [this, parseErrTag_word e tail hcr]
  | .Int i, f, tail, hwf, hf => by
    cases f with
    | zero => exact absurd hf (Nat.not_lt_zero _)
    | succ f2 =>
      simp only [wellFormed, Bool.and_eq_true, decide_eq_true_eq] at hwf
      simp only [write_redis_value, List.cons_append]
      rw [parseValueF, if_neg (by decide), if_pos rfl]
      have : (decimalInt i ++ [13, 10]) ++ tail = decimalInt i ++ 13 :: 10 :: tail := by simp
      rw [this, parseIntTag_word _ tail i (hasCRLF_decimalInt i)
        (int_of_word_decimalInt i hwf.1 hwf.2)]
  | .BulkString s, f, tail, hwf, hf => by
    cases f with
    | zero => exact absurd hf (Nat.not_lt_zero _)
    | succ f2 =>
      simp only [wellFormed, decide_eq_true_eq] at hwf
      simp only [write_redis_value, List.cons_append]
      rw [parseValueF, if_neg (by decide), if_neg (by decide), if_neg (by decide), if_pos rfl]
      have : (decimalNat s.length ++ [13, 10] ++ s ++ [13, 10]) ++ tail =
          decimalNat s.length ++ 13 :: 10 :: (s ++ 13 :: 10 :: tail) := by simp
      rw [this, parseBulk_body _ tail s (decimalNat_no13 _)
        (int_of_word_decimalNat s.length hwf)]
  | .Array a, f, tail, hwf, hf => by
    cases f with
    | zero => exact absurd hf (Nat.not_lt_zero _)
    | succ f2 =>
      simp only [wellFormed, Bool.and_eq_true, decide_eq_true_eq] at hwf
      obtain ⟨hbound, hlist⟩ := hwf
      simp only [write_redis_value, List.cons_append] at hf ⊢
      rw [parseValueF, if_neg (by decide), if_neg (by decide), if_neg (by decide),
        if_neg (by decide), if_pos rfl]
      have hassoc : (decimalNat a.length ++ [13, 10] ++ write_list a) ++ tail =
          decimalNat a.length ++ 13 :: 10 :: (write_list a ++ tail) := by simp
      rw [hassoc]
      simp only [splitWord_append_crlf _ _ (decimalNat_no13 a.length),
        int_of_word_decimalNat a.length hbound]
      rw [if_neg (by omega : ¬((a.length : Int) < 0))]
      have htn : ((a.length : Int)).toNat = a.length := by omega
      rw [htn]
      have hfl : (write_list a).length + 2 ≤ f2 := by
        have hd := decimalNat_length_pos a.length
        simp only [List.length_cons, List.length_append] at hf
        omega
      have := parse_write_list a f2 tail [] hlist hfl
      simpa using this
  | .NullArray, f, tail, hwf, hf => by
    cases f with
    | zero => exact absurd hf (Nat.not_lt_zero _)
    | succ f2 =>
      show parseValueF (f2 + 1) (NULL_ARRAY ++ tail) = .done .NullArray tail
      rw [show (NULL_ARRAY : List Nat) ++ tail = 42 :: ([45, 49] ++ 13 :: 10 :: tail) from rfl]
      rw [parseValueF, if_neg (by decide), if_neg (by decide), if_neg (by decide),
        if_neg (by decide), if_pos rfl]
      simp only [splitWord_append_crlf [45, 49] _ (by rfl),
        show int_of_word [45, 49] = some (-1) from rfl]
      rw [if_pos (by decide : (-1 : Int) < 0)]
  | .NullBulkString, f, tail, hwf, hf => by
    cases f with
    | zero => exact absurd hf (Nat.not_lt_zero _)
    | succ f2 =>
      show parseValueF (f2 + 1) (NULL_BULK_STRING ++ tail) = .done .NullBulkString tail
      rw [show (NULL_BULK_STRING : List Nat) ++ tail = 36 :: ([45, 49] ++ 13 :: 10 :: tail)
        from rfl]
      rw [parseValueF, if_neg (by decide), if_neg (by decide), if_neg (by decide), if_pos rfl]
      exact parseBulk_neg [45, 49] tail (-1) (by rfl) (by rfl) (by decide)

theorem parse_write_list : ∀ (l : List RedisValue) (f : Nat) (tail : List Nat)
    (acc : List RedisValue), wellFormedList l = true → (write_list l).length + 2 ≤ f →
    parseElemsF f l.length (write_list l ++ tail) acc = .done (.Array (acc.reverse ++ l)) tail
  | [], f, tail, acc, hwfl, hf => by
    cases f with
    | zero => simp [write_list] at hf
    | succ f2 =>
      simp only [write_list, List.length_nil, List.nil_append]
      rw [parseElemsF]
      simp
  | v :: t, f, tail, acc, hwfl, hf => by
    have hwv := write_length_ge v
    cases f with
    | zero => omega
    | succ f2 =>
      simp only [wellFormedList, Bool.and_eq_true] at hwfl
      obtain ⟨hwfv, hwft⟩ := hwfl
      simp only [write_list, List.length_cons, List.length_append] at hf ⊢
      rw [parseElemsF]
      have hassoc : (write_redis_value v ++ write_list t) ++ tail =
          write_redis_value v ++ (write_list t ++ tail) := by simp
      rw [hassoc, parse_write v f2 (write_list t ++ tail) hwfv (by omega)]
      simp only
      have := parse_write_list t f2 tail (v :: acc) hwft (by omega)
      rw [this]
      simp

end

theorem parseSimple_more (x : List Nat) (h : findCRLF x = none) : parseSimple x = .more := by
  rw [parseSimple, splitWord_eq_none x h]

theorem parseErrTag_more (x : List Nat) (h : findCRLF x = none) : parseErrTag x = .more := by
  rw [parseErrTag, splitWord_eq_none x h]

theorem parseIntTag_more (x : List Nat) (h : findCRLF x = none) : parseIntTag x = .more := by
  rw [parseIntTag, splitWord_eq_none x h]

theorem parseBulk_more (x : List Nat) (h : findCRLF x = none) : parseBulk x = .more := by
  rw [parseBulk, splitWord_eq_none x h]

theorem parseBulk_take_body (w s : List Nat) (j : Nat) (hw : hasCRLF w = false)
    (hn : int_of_word w = some (s.length : Int)) (hj : j < s.length + 2) :
    parseBulk (w ++ 13 :: 10 :: ((s ++ [13, 10]).take j)) = .more := by
  rw [parseBulk]
  simp only [splitWord_append_crlf _ _ hw, hn]
  rw [if_neg (by omega : ¬((s.length : Int) < 0))]
  have htn : ((s.length : Int)).toNat = s.length := by omega
  rw [htn]
  by_cases hcase : j < s.length
  · rw [List.take_append_of_le_length (by omega), if_pos]
    simp only [List.length_take]
    omega
  · rw [List.take_append_eq_append_take, List.take_of_length_le (by omega)]
    rw [if_neg (by simp only [List.length_append, List.length_take]; omega)]
    have hdrop : (s ++ [13, 10].take (j - s.length)).drop s.length = [13, 10].take (j - s.length) :=
      List.drop_left s _
    rw [hdrop]
    obtain hm | hm : j - s.length = 0 ∨ j - s.length = 1 := by omega
    · rw [hm]
      simp [parseCrlf]
    · rw [hm]
      simp [parseCrlf]

mutual

theorem parse_take_more : ∀ (v : RedisValue) (f i : Nat),
    wellFormed v = true → i < (write_redis_value v).length → i < f →
    parseValueF f ((write_redis_value v).take i) = .more
  | .SimpleString s, f, i, hwf, hi, hif => by
    cases f with
    | zero => omega
    | succ f2 =>
      cases i with
      | zero => rw [List.take_zero]; rw [parseValueF]
      | succ i2 =>
        have hcr : hasCRLF s = false := by simpa [wellFormed] using hwf
        simp only [write_redis_value, List.length_cons, List.length_append] at hi ⊢
        rw [List.take_succ_cons, parseValueF, if_pos rfl]
        apply parseSimple_more
        exact findCRLF_take_word s i2 hcr (by simp at hi; omega)
  | .Error e, f, i, hwf, hi, hif => by
    cases f with
    | zero => omega
    | succ f2 =>
      cases i with
      | zero => rw [List.take_zero]; rw [parseValueF]
      | succ i2 =>
        have hcr : hasCRLF e = false := by simpa [wellFormed] using hwf
        simp only [write_redis_value, List.length_cons, List.length_append] at hi ⊢
        rw [List.take_succ_cons, parseValueF, if_neg (by decide), if_neg (by decide),
          if_pos rfl]
        apply parseErrTag_more
        exact findCRLF_take_word e i2 hcr (by simp at hi; omega)
  | .Int n, f, i, hwf, hi, hif => by
    cases f with
    | zero => omega
    | succ f2 =>
      cases i with
      | zero => rw [List.take_zero]; rw [parseValueF]
      | succ i2 =>
        simp only [write_redis_value, List.length_cons, List.length_append] at hi ⊢
        rw [List.take_succ_cons, parseValueF, if_neg (by decide), if_pos rfl]
        apply parseIntTag_more
        exact findCRLF_take_word _ i2 (hasCRLF_decimalInt n) (by simp at hi; omega)
  | .BulkString s, f, i, hwf, hi, hif => by
    cases f with
    | zero => omega
    | succ f2 =>
      cases i with
      | zero => rw [List.take_zero]; rw [parseValueF]
      | succ i2 =>
        simp only [wellFormed, decide_eq_true_eq] at hwf
        simp only [write_redis_value, List.length_cons, List.length_append] at hi ⊢
        rw [List.take_succ_cons, parseValueF, if_neg (by decide), if_neg (by decide),
          if_neg (by decide), if_pos rfl]
        have hsplit : decimalNat s.length ++ [13, 10] ++ s ++ [13, 10] =
            (decimalNat s.length ++ [13, 10]) ++ (s ++ [13, 10]) := by simp
        rw [hsplit]
        by_cases hsmall : i2 < (decimalNat s.length).length + 2
        · rw [List.take_append_of_le_length (by simp; omega)]
          apply parseBulk_more
          exact findCRLF_take_word _ i2 (decimalNat_no13 _) hsmall
        · rw [List.take_append_eq_append_take, List.take_of_length_le (by simp; omega)]
          have hform : decimalNat s.length ++ [13, 10] ++
              (s ++ [13, 10]).take (i2 - (decimalNat s.length ++ [13, 10]).length) =
              decimalNat s.length ++ 13 :: 10 ::
                ((s ++ [13, 10]).take (i2 - (decimalNat s.length ++ [13, 10]).length)) := by
            simp
          rw [hform]
          apply parseBulk_take_body _ _ _ (decimalNat_no13 _) (int_of_word_decimalNat s.length hwf)
          simp only [List.length_append, List.length_cons, List.length_nil] at hi ⊢
          omega
  | .Array a, f, i, hwf, hi, hif => by
    cases f with
    | zero => omega
    | succ f2 =>
      cases i with
      | zero => rw [List.take_zero]; rw [parseValueF]
      | succ i2 =>
        simp only [wellFormed, Bool.and_eq_true, decide_eq_true_eq] at hwf
        obtain ⟨hbound, hlist⟩ := hwf
        simp only [write_redis_value, List.length_cons, List.length_append] at hi ⊢
        rw [List.take_succ_cons, parseValueF, if_neg (by decide), if_neg (by decide),
          if_neg (by decide), if_neg (by decide), if_pos rfl]
        have hsplit : decimalNat a.length ++ [13, 10] ++ write_list a =
            (decimalNat a.length ++ [13, 10]) ++ write_list a := by simp
        rw [hsplit]
        by_cases hsmall : i2 < (decimalNat a.length).length + 2
        · rw [List.take_append_of_le_length (by simp; omega)]
          rw [splitWord_eq_none _ (findCRLF_take_word _ i2 (decimalNat_no13 _) hsmall)]
        · rw [List.take_append_eq_append_take, List.take_of_length_le (by simp; omega)]
          have hform : decimalNat a.length ++ [13, 10] ++
              (write_list a).take (i2 - (decimalNat a.length ++ [13, 10]).length) =
              decimalNat a.length ++ 13 :: 10 ::
                ((write_list a).take (i2 - (decimalNat a.length ++ [13, 10]).length)) := by
            simp
          rw [hform]
          simp only [splitWord_append_crlf _ _ (decimalNat_no13 a.length),
            int_of_word_decimalNat a.length hbound]
          rw [if_neg (by omega : ¬((a.length : Int) < 0))]
          have htn : ((a.length : Int)).toNat = a.length := by omega
          rw [htn]
          have hd := decimalNat_length_pos a.length
          apply parse_take_list_more a f2 _ [] hlist
          · simp only [List.length_append, List.length_cons, List.length_nil] at hi ⊢
            omega
          · simp only [List.length_append, List.length_cons, List.length_nil] at hi ⊢
            omega
  | .NullArray, f, i, hwf, hi, hif => by
    cases f with
    | zero => omega
    | succ f2 =>
      cases i with
      | zero => rw [List.take_zero]; rw [parseValueF]
      | succ i2 =>
        have hna : write_redis_value .NullArray = 42 :: ([45, 49] ++ [13, 10]) := rfl
        rw [hna] at hi ⊢
        rw [List.take_succ_cons, parseValueF, if_neg (by decide), if_neg (by decide),
          if_neg (by decide), if_neg (by decide), if_pos rfl]
        rw [splitWord_eq_none _ (findCRLF_take_word [45, 49] i2 (by rfl)
          (by simp at hi ⊢; omega))]
  | .NullBulkString, f, i, hwf, hi, hif => by
    cases f with
    | zero => omega
    | succ f2 =>
      cases i with
      | zero => rw [List.take_zero]; rw [parseValueF]
      | succ i2 =>
        have hnb : write_redis_value .NullBulkString = 36 :: ([45, 49] ++ [13, 10]) := rfl
        rw [hnb] at hi ⊢
        rw [List.take_succ_cons, parseValueF, if_neg (by decide), if_neg (by decide),
          if_neg (by decide), if_pos rfl]
        apply parseBulk_more
        exact findCRLF_take_word [45, 49] i2 (by rfl) (by simp at hi ⊢; omega)

theorem parse_take_list_more : ∀ (l : List RedisValue) (f j : Nat) (acc : List RedisValue),
    wellFormedList l = true → j < (write_list l).length → j + 2 ≤ f →
    parseElemsF f l.length ((write_list l).take j) acc = .more
  | [], f, j, acc, hwfl, hj, hjf => by
    simp [write_list] at hj
  | v :: t, f, j, acc, hwfl, hj, hjf => by
    have hwv := write_length_ge v
    cases f with
    | zero => omega
    | succ f2 =>
      simp only [wellFormedList, Bool.and_eq_true] at hwfl
      obtain ⟨hwfv, hwft⟩ := hwfl
      simp only [write_list, List.length_cons, List.length_append] at hj ⊢
      rw [parseElemsF]
      by_cases hcase : j < (write_redis_value v).length
      · rw [List.take_append_of_le_length (by omega)]
        rw [parse_take_more v f2 j hwfv hcase (by omega)]
      · rw [List.take_append_eq_append_take, List.take_of_length_le (by omega)]
        rw [parse_write v f2 ((write_list t).take (j - (write_redis_value v).length)) hwfv
          (by omega)]
        simp only
        exact parse_take_list_more t f2 (j - (write_redis_value v).length) (v :: acc) hwft
          (by omega) (by omega)

end

theorem decode_write (v : RedisValue) (tail : List Nat) (hwf : wellFormed v = true) :
    decode (write_redis_value v ++ tail) = .ok (some v, tail) := by
  have h := parse_write v ((write_redis_value v ++ tail).length + 1) tail hwf
    (by simp only [List.length_append]; omega)
  rw [decode, redis_parse, h]

theorem decode_take (v : RedisValue) (i : Nat) (hwf : wellFormed v = true)
    (hi : i < (write_redis_value v).length) :
    decode ((write_redis_value v).take i) = .ok (none, (write_redis_value v).take i) := by
  have hlen : ((write_redis_value v).take i).length = i := by
    simp only [List.length_take]
    omega
  rw [decode, redis_parse, hlen, parse_take_more v (i + 1) i hwf hi (Nat.lt_succ_self i)]

theorem write_list_eq_flatten (l : List RedisValue) :
    write_list l = (l.map write_redis_value).flatten := by
  induction l with
  | nil => rfl
  | cons v t ih => simp [write_list, ih]

example : redis_parse [43, 104, 105, 13, 10] = .done (.SimpleString [104, 105]) [] := rfl
example : redis_parse [58, 49, 50, 51, 13, 10] = .done (.Int 123) [] := rfl
example : redis_parse [36, 45, 49, 13, 10] = .done .NullBulkString [] := rfl
example : redis_parse [42, 45, 49, 13, 10] = .done .NullArray [] := rfl
example : redis_parse [42, 48, 13, 10] = .done (.Array []) [] := rfl
example : redis_parse [36, 51, 13, 10, 102, 111, 111, 13, 10] = .done (.BulkString [102, 111, 111]) [] := rfl
example :
    redis_parse [42, 50, 13, 10, 36, 51, 13, 10, 102, 111, 111, 13, 10, 36, 51, 13, 10, 98, 97, 114, 13, 10] =
      .done (.Array [.BulkString [102, 111, 111], .BulkString [98, 97, 114]]) [] := rfl
example : redis_parse [42, 50, 13, 10, 58, 49, 13, 10] = .more := rfl
example : redis_parse [43, 104, 105] = .more := rfl
example : redis_parse [58, 97, 13, 10] = .fail "Expected integer, got garbage" := rfl
example : redis_parse [64, 104, 105, 13, 10] = .fail "unexpected type tag byte" := rfl
example : redis_parse [58, 32, 52, 50, 32, 13, 10] = .done (.Int 42) [] := rfl
example : redis_parse [58, 255, 13, 10] = .fail "Expected integer, got garbage" := rfl
example : write_redis_value (.Int (-12)) = [58, 45, 49, 50, 13, 10] := rfl
example : write_redis_value (.Array [.Int 1, .SimpleString [104]]) =
    [42, 50, 13, 10, 58, 49, 13, 10, 43, 104, 13, 10] := rfl
example : wellFormed (.Array [.Int 5, .BulkString [13, 10]]) = true := rfl
example : wellFormed (.SimpleString [97, 13, 10]) = false := rfl

/-- C1 (counterexample): the round-trip property fails as stated for every
constructible value: `SimpleString "\r\n"` encodes to `+\r\n\r\n`, and a
fresh decoder run on those bytes stops at the first CR LF, yielding the
empty `SimpleString` with two bytes left over, not the original value. -/
theorem roundtrip_fails_on_embedded_crlf :
    decode (write_redis_value (.SimpleString [13, 10])) =
      .ok (some (.SimpleString []), [13, 10]) ∧
    (RedisValue.SimpleString [] : RedisValue) ≠ .SimpleString [13, 10] :=
  ⟨rfl, by simp⟩

/-- C1 (amended): for every constructible RedisValue whose `SimpleString`
and `Error` payloads contain no CR LF pair at any nesting level (and whose
integers and lengths fit in `i64`, as the Rust types force), feeding the
bytes produced by encoding `v` to a fresh decoder yields exactly `v`,
consuming the whole encoding. -/
theorem roundtrip_decode_write (v : RedisValue) (hwf : wellFormed v = true) :
    decode (write_redis_value v) = .ok (some v, []) := by
  have := decode_write v [] hwf
  simpa using this

/-- C1 witness: the round trip at the spec's nested-array scenario
`*2\r\n*3\r\n:1\r\n:2\r\n:3\r\n*2\r\n+Foo\r\n-Bar\r\n`. -/
theorem roundtrip_decode_write_witness :
    wellFormed (.Array [.Array [.Int 1, .Int 2, .Int 3],
      .Array [.SimpleString [70, 111, 111], .Error [66, 97, 114]]]) = true ∧
    decode (write_redis_value (.Array [.Array [.Int 1, .Int 2, .Int 3],
      .Array [.SimpleString [70, 111, 111], .Error [66, 97, 114]]])) =
      .ok (some (.Array [.Array [.Int 1, .Int 2, .Int 3],
        .Array [.SimpleString [70, 111, 111], .Error [66, 97, 114]]]), []) :=
  ⟨rfl, roundtrip_decode_write (.Array [.Array [.Int 1, .Int 2, .Int 3],
    .Array [.SimpleString [70, 111, 111], .Error [66, 97, 114]]]) rfl⟩

/-- C2: chunk invariance: splitting the complete encoding of a well-formed
value at any index and feeding the two pieces through two successive
decode calls on the growing buffer yields the same decoded value (and the
same final empty buffer) as decoding the whole message in one call. -/
theorem chunk_invariance_two_pieces (v : RedisValue) (hwf : wellFormed v = true) (i : Nat) :
    feedTwo ((write_redis_value v).take i) ((write_redis_value v).drop i) =
      .ok (some v, []) ∧
    decode (write_redis_value v) = .ok (some v, []) := by
  have hfull : decode (write_redis_value v) = .ok (some v, []) := by
    have := decode_write v [] hwf
    simpa using this
  refine ⟨?_, hfull⟩
  by_cases hi : i < (write_redis_value v).length
  · rw [feedTwo, decode_take v i hwf hi]
    show decode ((write_redis_value v).take i ++ (write_redis_value v).drop i) = _
    rw [List.take_append_drop]
    exact hfull
  · push_neg at hi
    rw [List.take_of_length_le hi, List.drop_eq_nil_of_le hi, feedTwo, hfull]
    rfl

/-- C2 witness: the bulk string `$3\r\nfoo\r\n` split after its fifth
byte, i.e. in the middle of the length-prefixed body. -/
theorem chunk_invariance_two_pieces_witness :
    wellFormed (.BulkString [102, 111, 111]) = true ∧
    (feedTwo ((write_redis_value (.BulkString [102, 111, 111])).take 5)
        ((write_redis_value (.BulkString [102, 111, 111])).drop 5) =
        .ok (some (.BulkString [102, 111, 111]), []) ∧
      decode (write_redis_value (.BulkString [102, 111, 111])) =
        .ok (some (.BulkString [102, 111, 111]), [])) :=
  ⟨rfl, chunk_invariance_two_pieces (.BulkString [102, 111, 111]) rfl 5⟩

/-- C3: no-crash: decoding is a total function on arbitrary byte
sequences: the fuel bound of the embedding is never hit, and every call
returns a value, "no value yet" with the buffer intact, or an error. -/
theorem decode_no_crash_trichotomy (input : List Nat) :
    redis_parse input ≠ .noFuel ∧
    ((∃ v rest, decode input = .ok (some v, rest)) ∨ decode input = .ok (none, input) ∨
      ∃ msg, decode input = .error msg) := by
  refine ⟨redis_parse_ne_noFuel input, ?_⟩
  cases h : redis_parse input with
  | done v rest => exact Or.inl ⟨v, rest, by rw [decode, h]⟩
  | more => exact Or.inr (Or.inl (by rw [decode, h]))
  | fail msg => exact Or.inr (Or.inr ⟨msg, by rw [decode, h]⟩)
  | noFuel => exact absurd h (redis_parse_ne_noFuel input)

/-- C4: non-consumption on partial input: every strict prefix of a
well-formed message (including the empty buffer) decodes to "no value
yet" and leaves the buffer exactly as given. -/
theorem decode_partial_prefix_none (v : RedisValue) (hwf : wellFormed v = true) (i : Nat)
    (hi : i < (write_redis_value v).length) :
    decode ((write_redis_value v).take i) = .ok (none, (write_redis_value v).take i) :=
  decode_take v i hwf hi

/-- C4 witness: the first eight bytes of `*2\r\n:1\r\n:2\r\n` — the array
header plus its complete first element but not its second. -/
theorem decode_partial_prefix_none_witness :
    wellFormed (.Array [.Int 1, .Int 2]) = true ∧
    8 < (write_redis_value (.Array [.Int 1, .Int 2])).length ∧
    decode ((write_redis_value (.Array [.Int 1, .Int 2])).take 8) =
      .ok (none, (write_redis_value (.Array [.Int 1, .Int 2])).take 8) :=
  ⟨rfl, by decide, decode_partial_prefix_none (.Array [.Int 1, .Int 2]) rfl 8 (by decide)⟩

/-- C5: exact consumption: when the buffer starts with the complete
encoding of a well-formed value, decode returns that value and removes
exactly the message's bytes, leaving every following byte intact. -/
theorem decode_exact_consumption (v : RedisValue) (hwf : wellFormed v = true)
    (tail : List Nat) :
    decode (write_redis_value v ++ tail) = .ok (some v, tail) :=
  decode_write v tail hwf

/-- C5 witness: two back-to-back `+hello\r\n` messages: the first decode
consumes exactly the first message and leaves the second buffered. -/
theorem decode_exact_consumption_witness :
    wellFormed (.SimpleString [104, 101, 108, 108, 111]) = true ∧
    decode (write_redis_value (.SimpleString [104, 101, 108, 108, 111]) ++
        write_redis_value (.SimpleString [104, 101, 108, 108, 111])) =
      .ok (some (.SimpleString [104, 101, 108, 108, 111]),
        write_redis_value (.SimpleString [104, 101, 108, 108, 111])) :=
  ⟨rfl, decode_exact_consumption (.SimpleString [104, 101, 108, 108, 111]) rfl
    (write_redis_value (.SimpleString [104, 101, 108, 108, 111]))⟩

/-- C6: null sentinels: any word parsing to a negative integer after `$`
produces `NullBulkString` consuming no body bytes, and after `*` produces
`NullArray`; in particular `$-1\r\n` and `*-1\r\n`, each distinct from
the empty bulk string and empty array. -/
theorem decode_null_sentinels :
    (∀ (w : List Nat) (n : Int) (tail : List Nat), hasCRLF w = false →
      int_of_word w = some n → n < 0 →
      decode (36 :: (w ++ 13 :: 10 :: tail)) = .ok (some .NullBulkString, tail) ∧
      decode (42 :: (w ++ 13 :: 10 :: tail)) = .ok (some .NullArray, tail)) ∧
    decode [36, 45, 49, 13, 10] = .ok (some .NullBulkString, []) ∧
    decode [42, 45, 49, 13, 10] = .ok (some .NullArray, []) ∧
    (RedisValue.NullBulkString ≠ .BulkString []) ∧
    (RedisValue.NullArray ≠ .Array []) := by
  refine ⟨?_, rfl, rfl, by simp, by simp⟩
  intro w n tail hw hn hneg
  constructor
  · have hp : redis_parse (36 :: (w ++ 13 :: 10 :: tail)) = .done .NullBulkString tail := by
      rw [redis_parse, parseValueF, if_neg (by decide), if_neg (by decide),
        if_neg (by decide), if_pos rfl, parseBulk_neg w tail n hw hn hneg]
    rw [decode, hp]
  · have hp : redis_parse (42 :: (w ++ 13 :: 10 :: tail)) = .done .NullArray tail := by
      rw [redis_parse, parseValueF, if_neg (by decide), if_neg (by decide),
        if_neg (by decide), if_neg (by decide), if_pos rfl]
      simp only [splitWord_append_crlf w tail hw, hn]
      rw [if_pos hneg]
    rw [decode, hp]

/-- C6 witness: the word `-1` with nothing after the message. -/
theorem decode_null_sentinels_witness :
    decode (36 :: ([45, 49] ++ 13 :: 10 :: [])) = .ok (some .NullBulkString, []) ∧
    decode (42 :: ([45, 49] ++ 13 :: 10 :: [])) = .ok (some .NullArray, []) :=
  decode_null_sentinels.1 [45, 49] (-1) [] rfl rfl (by decide)

/-- C7: integer parsing: a `:`-tagged message whose word (the bytes
before the first CR LF) passes UTF-8 decoding, whitespace trimming and
base-10 signed 64-bit parsing yields that integer; a word failing any of
those steps makes the decode fail with an error instead of a value. -/
theorem decode_integer_word (w tail : List Nat) (hw : hasCRLF w = false) :
    (∀ n : Int, int_of_word w = some n →
      decode (58 :: (w ++ 13 :: 10 :: tail)) = .ok (some (.Int n), tail)) ∧
    (int_of_word w = none →
      ∃ msg, decode (58 :: (w ++ 13 :: 10 :: tail)) = .error msg) := by
  constructor
  · intro n hn
    have hp : redis_parse (58 :: (w ++ 13 :: 10 :: tail)) = .done (.Int n) tail := by
      rw [redis_parse, parseValueF, if_neg (by decide), if_pos rfl,
        parseIntTag_word w tail n hw hn]
    rw [decode, hp]
  · intro hn
    refine ⟨"Expected integer, got garbage", ?_⟩
    have hp : redis_parse (58 :: (w ++ 13 :: 10 :: tail)) =
        .fail "Expected integer, got garbage" := by
      rw [redis_parse, parseValueF, if_neg (by decide), if_pos rfl,
        parseIntTag_word_fail w tail hw hn]
    rw [decode, hp]

/-- C7 witness: `: 123 \r\n` — surrounding whitespace is trimmed and the
word parses to 123. -/
theorem decode_integer_word_witness :
    decode (58 :: ([32, 49, 50, 51, 32] ++ 13 :: 10 :: [])) =
      .ok (some (.Int 123), []) :=
  (decode_integer_word [32, 49, 50, 51, 32] [] rfl).1 123 rfl

/-- C8: encoder wire format: every variant is emitted in exactly the
section-6 byte layout, arrays depth-first in element order, and integers
and lengths as decimal ASCII digits with a leading `-` exactly for
negative values and no leading zeros (except the literal 0). -/
theorem encoder_wire_format :
    (∀ s, write_redis_value (.SimpleString s) = 43 :: (s ++ [13, 10])) ∧
    (∀ e, write_redis_value (.Error e) = 45 :: (e ++ [13, 10])) ∧
    (∀ i : Int, write_redis_value (.Int i) = 58 :: (decimalInt i ++ [13, 10])) ∧
    (∀ s, write_redis_value (.BulkString s) =
      36 :: (decimalNat s.length ++ [13, 10] ++ s ++ [13, 10])) ∧
    (∀ a, write_redis_value (.Array a) =
      42 :: (decimalNat a.length ++ [13, 10] ++ (a.map write_redis_value).flatten)) ∧
    write_redis_value .NullBulkString = [36, 45, 49, 13, 10] ∧
    write_redis_value .NullArray = [42, 45, 49, 13, 10] ∧
    (∀ n : Nat, (decimalNat n).all (fun d => decide (48 ≤ d) && decide (d ≤ 57)) = true) ∧
    (∀ n : Nat, (decimalNat n).head? ≠ some 48 ∨ n = 0) ∧
    (∀ i : Int, decimalInt i = if i < 0 then 45 :: decimalNat i.natAbs
      else decimalNat i.toNat) := by
  refine ⟨fun s => rfl, fun e => rfl, fun i => rfl, fun s => rfl, ?_, rfl, rfl, ?_, ?_,
    fun i => rfl⟩
  · intro a
    simp [write_redis_value, write_list_eq_flatten]
  · intro n
    apply List.all_eq_true.mpr
    intro d hd
    have := decimalNat_digits n d hd
    simp only [Bool.and_eq_true, decide_eq_true_eq]
    omega
  · intro n
    by_cases h : n = 0
    · exact Or.inr h
    · exact Or.inl (decimalNat_head_ne_zero n h)

/-- C9: encoding never fails: for every value and every already-buffered
output, the codec's encode call returns `Ok` with the wire bytes
appended; no message content can produce an error. -/
theorem encode_always_ok (item : RedisValue) (dst : List Nat) :
    encode item dst = .ok (dst ++ write_redis_value item) ∧
    ∀ msg : String, encode item dst ≠ .error msg :=
  ⟨rfl, fun msg h => by simp [encode] at h⟩

/-- C10: the encoder validates and escapes nothing: `SimpleString` and
`Error` payloads are copied verbatim between the tag byte and the
trailing CR LF even when they contain CR LF themselves, and for such
payloads the produced bytes are not a well-formed encoding of the
original value — decoding them cannot give the value back. -/
theorem encoder_copies_payload_verbatim :
    (∀ s : List Nat, write_redis_value (.SimpleString s) = 43 :: (s ++ [13, 10]) ∧
      write_redis_value (.Error s) = 45 :: (s ++ [13, 10])) ∧
    (∀ (s : List Nat) (v : RedisValue) (rest : List Nat), hasCRLF s = true →
      decode (write_redis_value (.SimpleString s)) = .ok (some v, rest) →
      v ≠ .SimpleString s) ∧
    (∀ (s : List Nat) (v : RedisValue) (rest : List Nat), hasCRLF s = true →
      decode (write_redis_value (.Error s)) = .ok (some v, rest) → v ≠ .Error s) := by
  refine ⟨fun s => ⟨rfl, rfl⟩, ?_, ?_⟩
  · intro s v rest hcr hdec
    obtain ⟨k, hk, hkle⟩ := hasCRLF_ex_findCRLF s hcr
    have hp : redis_parse (43 :: (s ++ [13, 10])) =
        .done (.SimpleString ((s ++ [13, 10]).take k)) ((s ++ [13, 10]).drop (k + 2)) := by
      rw [redis_parse, parseValueF, if_pos rfl, parseSimple, splitWord,
        findCRLF_append_of_some s [13, 10] k hk]
      rfl
    have hw : write_redis_value (.SimpleString s) = 43 :: (s ++ [13, 10]) := rfl
    rw [hw, decode, hp] at hdec
    simp only [Except.ok.injEq, Prod.mk.injEq, Option.some.injEq] at hdec
    intro hv
    rw [← hdec.1] at hv
    have htake : (s ++ [13, 10]).take k = s.take k :=
      List.take_append_of_le_length (by omega)
    rw [htake] at hv
    have hlens := congrArg (fun x => match x with
      | RedisValue.SimpleString y => y.length
      | _ => 0) hv
    simp only [List.length_take] at hlens
    omega
  · intro s v rest hcr hdec
    obtain ⟨k, hk, hkle⟩ := hasCRLF_ex_findCRLF s hcr
    have hp : redis_parse (45 :: (s ++ [13, 10])) =
        .done (.Error ((s ++ [13, 10]).take k)) ((s ++ [13, 10]).drop (k + 2)) := by
      rw [redis_parse, parseValueF, if_neg (by decide), if_neg (by decide), if_pos rfl,
        parseErrTag, splitWord, findCRLF_append_of_some s [13, 10] k hk]
      rfl
    have hw : write_redis_value (.Error s) = 45 :: (s ++ [13, 10]) := rfl
    rw [hw, decode, hp] at hdec
    simp only [Except.ok.injEq, Prod.mk.injEq, Option.some.injEq] at hdec
    intro hv
    rw [← hdec.1] at hv
    have htake : (s ++ [13, 10]).take k = s.take k :=
      List.take_append_of_le_length (by omega)
    rw [htake] at hv
    have hlens := congrArg (fun x => match x with
      | RedisValue.Error y => y.length
      | _ => 0) hv
    simp only [List.length_take] at hlens
    omega

/-- C10 witness: the payload `a\r\n`: its simple-string encoding decodes
to `SimpleString "a"`, which is not the original value. -/
theorem encoder_copies_payload_verbatim_witness :
    (RedisValue.SimpleString [97] : RedisValue) ≠ .SimpleString [97, 13, 10] :=
  encoder_copies_payload_verbatim.2.1 [97, 13, 10] (.SimpleString [97]) [13, 10] rfl rfl

/-- C3 witness: the no-crash trichotomy at the non-UTF-8 integer word
`:\xff\r\n`. -/
theorem decode_no_crash_trichotomy_witness :
    redis_parse [58, 255, 13, 10] ≠ PResult.noFuel :=
  (decode_no_crash_trichotomy [58, 255, 13, 10]).1

/-- C8 witness: the integer layout equation at `-5`. -/
theorem encoder_wire_format_witness :
    write_redis_value (.Int (-5)) = 58 :: (decimalInt (-5) ++ [13, 10]) :=
  encoder_wire_format.2.2.1 (-5)

/-- C9 witness: encoding `:7\r\n` onto an empty output buffer returns
`Ok`. -/
theorem encode_always_ok_witness :
    encode (.Int 7) [] = .ok ([] ++ write_redis_value (.Int 7)) :=
  (encode_always_ok (.Int 7) []).1
